import Mathlib

/-!
Verification of the message codec of the `rust-irc` library.

Modelling conventions.
* Rust byte slices (`&[u8]`) and strings are modelled as `List Char`; every
  byte-level predicate of the source compares the same numeric code points
  (`Char.toNat`) that the Rust code compares as `u8` values, so on the wire
  alphabet the two agree exactly.
* `str::from_utf8` applied to a run of bytes is modelled as the identity on
  the corresponding character list (on such runs a successful decode returns
  the same characters; the decode-failure path is not exercised by any claim).
* The nom parser combinators of `src/parser.rs` are modelled as functions
  `List Char → Option (value × remaining)`: `IResult::Done(rest, v)` becomes
  `some (v, rest)`, and both `Error` and `Incomplete` become `none` (the
  grammar rules of the source are wrapped in `complete!` where the
  distinction would matter).
* Functions that panic (`Command::of_word`, `Command::of_number`) are
  modelled as `Option`-returning, `none` standing for the panic.
* The Rust enum `Prefix` is modelled by the inductive `Pfx` (the word itself
  is reserved in this development's environment), and the nom rule `prefix`
  by `pfx`.
-/

namespace Irc

/-- `Command` from `src/command.rs`: a word (sequence of letters) or a
numeric command.  The Rust `u16` payload is modelled as `Nat`; every value
the code constructs fits in a `u16`. -/
inductive Command where
  | Word (w : List Char)
  | Number (n : Nat)
deriving DecidableEq, Repr

/-- `UserInfo` from `src/message.rs`: nickname, nickname@host, or
nickname!username@host. -/
inductive UserInfo where
  | Nick (nickname : List Char)
  | NickHost (nickname host : List Char)
  | NickUserHost (nickname username host : List Char)
deriving DecidableEq, Repr

/-- `Prefix` from `src/message.rs` (renamed: the source's name is reserved
here): no prefix, a server hostname, or user information. -/
inductive Pfx where
  | None
  | Server (s : List Char)
  | User (u : UserInfo)
deriving DecidableEq, Repr

/-- `Message` from `src/message.rs`: prefix, command, ordered arguments.
The field `prefix` is called `pfx` (see `Pfx`). -/
structure Message where
  pfx : Pfx
  command : Command
  arguments : List (List Char)
deriving DecidableEq, Repr

/-- `Command::of_word` from `src/command.rs`: asserts every character is in
`0x41-0x5A` or `0x61-0x7A` (the source's two range checks, A-Z and a-z);
the panic on any other character is modelled as `none`.  Note the loop body
never runs for the empty word, so the empty word is accepted. -/
def Command.of_word (word : List Char) : Option Command :=
  if word.all (fun c =>
      (0x41 ≤ c.toNat && c.toNat ≤ 0x5A) || (0x61 ≤ c.toNat && c.toNat ≤ 0x7A)) then
    some (Command.Word word)
  else
    none

/-- `Command::of_number` from `src/command.rs`: asserts `number <= 999`;
the panic is modelled as `none`. -/
def Command.of_number (number : Nat) : Option Command :=
  if number ≤ 999 then some (Command.Number number) else none

/-- `commands::PING()` (`Command::of_word("PING")`, which always succeeds). -/
def PING : Command := Command.Word ("PING".toList)

/-- `commands::PONG()`. -/
def PONG : Command := Command.Word ("PONG".toList)

/-- `commands::PRIVMSG()`. -/
def PRIVMSG : Command := Command.Word ("PRIVMSG".toList)

/-- Decimal representation of a `Nat`, most significant digit first, as the
Rust `Display` for integers produces it (`0` prints as `"0"`). -/
def decimalRep (n : Nat) : List Char :=
  if n = 0 then ['0'] else ((Nat.digits 10 n).reverse.map Nat.digitChar)

/-- Left-pad with `'0'` to width 3: the `{:0>3}` format used by
`impl Display for Command`. -/
def padLeft3 (s : List Char) : List Char :=
  List.replicate (3 - s.length) '0' ++ s

/-- `impl Display for Command` from `src/command.rs`: a word renders
verbatim, a number renders zero-left-padded to width 3. -/
def Command.display : Command → List Char
  | Command.Word w => w
  | Command.Number n => padLeft3 (decimalRep n)

/-- `impl Display for UserInfo` from `src/message.rs`. -/
def UserInfo.display : UserInfo → List Char
  | UserInfo.Nick n => n
  | UserInfo.NickHost n h => n ++ '@' :: h
  | UserInfo.NickUserHost n u h => n ++ '!' :: u ++ '@' :: h

/-- The prefix part written by `impl Display for Message`: nothing, or
`":" ++ text ++ " "`. -/
def Pfx.display : Pfx → List Char
  | Pfx.None => []
  | Pfx.Server s => ':' :: (s ++ [' '])
  | Pfx.User u => ':' :: (u.display ++ [' '])

/-- The argument loop of `impl Display for Message`
(`src/message.rs:126-134`): each argument is preceded by one space, and the
argument at index `arguments.len() - 1` is additionally preceded by `':'`
when it contains a space.  `total` is `arguments.len()`, `i` the index of
the first element of the remaining list. -/
def serializeArgsFrom (total : Nat) : Nat → List (List Char) → List Char
  | _, [] => []
  | i, a :: rest =>
    (' ' :: (if i == total - 1 && a.contains ' ' then ':' :: a else a))
      ++ serializeArgsFrom total (i + 1) rest

/-- `impl Display for Message` from `src/message.rs`: prefix part, command
display, then the argument loop. -/
def Message.fmt (m : Message) : List Char :=
  m.pfx.display ++ m.command.display
    ++ serializeArgsFrom m.arguments.length 0 m.arguments

/- ------------------------------------------------------------------ -/
/- The parser, `src/parser.rs`.                                        -/
/- ------------------------------------------------------------------ -/

/-- `is_letter` from `src/parser.rs`. -/
def is_letter (c : Char) : Bool :=
  (97 ≤ c.toNat && c.toNat ≤ 122) || (65 ≤ c.toNat && c.toNat ≤ 90)

/-- `is_digit` from `src/parser.rs`. -/
def is_digit (c : Char) : Bool :=
  48 ≤ c.toNat && c.toNat ≤ 57

/-- `is_host_char` from `src/parser.rs`: letters, digits, `'.'`, `':'`. -/
def is_host_char (c : Char) : Bool :=
  is_letter c || is_digit c || c == '.' || c == ':'

/-- `nospcrlfcl` from `src/parser.rs`: everything except NUL, CR, LF,
space and colon. -/
def nospcrlfcl (c : Char) : Bool :=
  c.toNat != 0 && c != '\r' && c != '\n' && c != ' ' && c != ':'

/-- `is_special` from `src/parser.rs`: the RFC "special" characters
`[ ] \ _ ^ | { } ` and the backquote (characters 96, 123, 125 written by
code point). -/
def is_special (c : Char) : Bool :=
  c == '[' || c == ']' || c == '\\' || c == Char.ofNat 96 || c == '_' ||
  c == '^' || c == Char.ofNat 123 || c == '|' || c == Char.ofNat 125

/-- `trailing_char` from `src/parser.rs`: space, colon, or `nospcrlfcl`. -/
def trailing_char (c : Char) : Bool :=
  c == ' ' || c == ':' || nospcrlfcl c

/-- `is_nickname_char` from `src/parser.rs`. -/
def is_nickname_char (c : Char) : Bool :=
  is_letter c || is_special c || is_digit c || c == '-'

/-- `is_username_char` from `src/parser.rs`: not NUL, CR, LF, space, `'@'`. -/
def is_username_char (c : Char) : Bool :=
  c.toNat != 0 && c != '\r' && c != '\n' && c != ' ' && c != '@'

/-- A nom parser on our byte model: input to `none` (error/incomplete) or
`some (value, remaining)`. -/
def Parser (α : Type) : Type := List Char → Option (α × List Char)

/-- nom `tag!`: match a literal, consuming it. -/
def tag (t : List Char) : Parser Unit := fun input =>
  if t.isPrefixOf input then some ((), input.drop t.length) else none

/-- nom `take_while1!`: longest (possibly improper) prefix of characters
satisfying `p`; error when that prefix is empty. -/
def takeWhile1 (p : Char → Bool) : Parser (List Char) := fun input =>
  if input.takeWhile p = [] then none
  else some (input.takeWhile p, input.dropWhile p)

/-- nom `take_while!`: like `takeWhile1` but an empty match succeeds. -/
def takeWhile0 (p : Char → Bool) : Parser (List Char) := fun input =>
  some (input.takeWhile p, input.dropWhile p)

/-- nom `map!` / `map_res!` with an always-successful function. -/
def pmap (f : α → β) (p : Parser α) : Parser β := fun input =>
  match p input with
  | some (a, rest) => some (f a, rest)
  | none => none

/-- Sequencing of parsers (nom `chain!` steps). -/
def pbind (p : Parser α) (f : α → Parser β) : Parser β := fun input =>
  match p input with
  | some (a, rest) => f a rest
  | none => none

/-- nom `alt!` with two branches: try `p`, on error try `q` on the same
input.  (`complete!` in the source turns `Incomplete` into an error; both
are `none` here.) -/
def alt (p q : Parser α) : Parser α := fun input =>
  match p input with
  | some r => some r
  | none => q input

/-- nom `opt!` (the `?` of `chain!`): always succeeds, consuming nothing on
failure of `p`. -/
def opt (p : Parser α) : Parser (Option α) := fun input =>
  match p input with
  | some (a, rest) => some (some a, rest)
  | none => some (none, input)

/-- nom `preceded!`. -/
def preceded (p : Parser α) (q : Parser β) : Parser β :=
  pbind p (fun _ => q)

/-- nom `terminated!`. -/
def terminated (p : Parser α) (q : Parser β) : Parser α :=
  pbind p (fun a => pmap (fun _ => a) q)

/-- `make_word` from `src/parser.rs`: UTF-8 decode (identity in this model)
into `Command::Word`. -/
def make_word (input : List Char) : Command := Command.Word input

/-- The numeric value of a decimal digit string, as `u16::from_str`
computes it. -/
def decValue (s : List Char) : Nat :=
  s.foldl (fun a c => 10 * a + (c.toNat - 48)) 0

/-- `make_number` from `src/parser.rs`:
`u16::from_str(text).unwrap_or(123)` — a run of digits whose value exceeds
`u16::MAX` (65535) falls back to `123`; there is no 3-digit validation
(the source's own TODO notes this). -/
def make_number (input : List Char) : Command :=
  Command.Number (if decValue input ≤ 65535 then decValue input else 123)

/-- nom rule `nickname`: `take_while1!(is_nickname_char)`. -/
def nickname : Parser (List Char) := takeWhile1 is_nickname_char

/-- nom rule `username`: `take_while1!(is_username_char)`. -/
def username : Parser (List Char) := takeWhile1 is_username_char

/-- nom rule `host`: `take_while1!(is_host_char)`. -/
def host : Parser (List Char) := takeWhile1 is_host_char

/-- First `user_info` branch (`src/parser.rs:156-158`):
`nickname "!" username "@" host`. -/
def user_full : Parser UserInfo :=
  pbind nickname (fun n =>
    pbind (tag ['!']) (fun _ =>
      pbind username (fun u =>
        pbind (tag ['@']) (fun _ =>
          pmap (fun h => UserInfo.NickUserHost n u h) host))))

/-- Second `user_info` branch (`src/parser.rs:159`): `nickname "@" host`. -/
def user_nickhost : Parser UserInfo :=
  pbind nickname (fun n =>
    pbind (tag ['@']) (fun _ =>
      pmap (fun h => UserInfo.NickHost n h) host))

/-- Third `user_info` branch (`src/parser.rs:160`): bare nickname. -/
def user_nick_only : Parser UserInfo :=
  pmap (fun n => UserInfo.Nick n) nickname

/-- nom rule `user_info` (`src/parser.rs:155-161`): ordered alternatives —
full form, then partial form, then bare nickname. -/
def user_info : Parser UserInfo :=
  alt user_full (alt user_nickhost user_nick_only)

/-- nom rule `user_prefix`: `map!(user_info, make_user_prefix)`. -/
def user_pfx : Parser Pfx := pmap (fun u => Pfx.User u) user_info

/-- nom rule `server_prefix`: `map!(host, make_server_prefix)`. -/
def server_pfx : Parser Pfx := pmap (fun s => Pfx.Server s) host

/-- nom rule `prefix` (`src/parser.rs:147-149`), renamed `pfx`: a `':'`,
then either the user form or the server form, each required to consume up
to (and including) the following space. -/
def pfx : Parser Pfx :=
  preceded (tag [':'])
    (alt (terminated user_pfx (tag [' ']))
         (terminated server_pfx (tag [' '])))

/-- nom rule `word_command`: a nonempty maximal run of letters. -/
def word_command : Parser Command := pmap make_word (takeWhile1 is_letter)

/-- nom rule `numeric_command`: a nonempty maximal run of digits (the
source does not limit it to 3 digits). -/
def numeric_command : Parser Command := pmap make_number (takeWhile1 is_digit)

/-- nom rule `command` (`src/parser.rs:122`): word form tried before the
numeric form. -/
def command : Parser Command := alt word_command numeric_command

/-- nom rule `param`: `take_while1!(nospcrlfcl)` — note the run stops at a
colon, NUL, CR, LF or space. -/
def param : Parser (List Char) := takeWhile1 nospcrlfcl

/-- nom rule `trailing`: `take_while!(trailing_char)`. -/
def trailing : Parser (List Char) := takeWhile0 trailing_char

/-- nom rule `final_param`: `':'` then a trailing run. -/
def final_param : Parser (List Char) := preceded (tag [':']) trailing

/-- One iteration of the `params` rule: a space, then `param` or
`final_param`. -/
def paramStep : Parser (List Char) := preceded (tag [' ']) (alt param final_param)

/-- Fueled unfolding of nom `many0!` over `paramStep`.  `many0!` never
fails: it accumulates until the step parser fails.  Each successful step
consumes at least the leading space, so fuel `input.length` never runs
out prematurely (shown by `paramsAux_fuel_congr` below). -/
def paramsAux : Nat → List Char → List (List Char) × List Char
  | 0, input => ([], input)
  | fuel + 1, input =>
    match paramStep input with
    | none => ([], input)
    | some (a, rest) =>
      let res := paramsAux fuel rest
      (a :: res.1, res.2)

/-- nom rule `params` (`src/parser.rs:117`):
`many0!(preceded!(tag!(" "), alt!(param | final_param)))`. -/
def params : Parser (List (List Char)) := fun input =>
  some (paramsAux input.length input)

/-- nom rule `message` (`src/parser.rs:109-115`): optional prefix, command,
params; a missing prefix becomes `Prefix::None`. -/
def message : Parser Message :=
  pbind (opt pfx) (fun pf =>
    pbind command (fun c =>
      pmap (fun ps => Message.mk (pf.getD Pfx.None) c ps) params))

/-- Modelled from the spec: `Message::parse` is called from
`src/irc_stream.rs`, `src/client.rs` and the tests of
`src/messages/privmsg.rs` but its definition is not among the provided
sources.  Per the spec (§4.2, §6) it runs the `message` grammar and then
requires the two-byte CR LF terminator, returning the parsed `Message`
together with the bytes remaining after the terminator; a grammar mismatch
or missing terminator is a failure (`none`). -/
def Message.parse : Parser Message :=
  terminated message (tag ['\r', '\n'])

/- ------------------------------------------------------------------ -/
/- Typed views, `src/messages/ping.rs` and `src/messages/privmsg.rs`.  -/
/- ------------------------------------------------------------------ -/

/-- `Ping` from `src/messages/ping.rs`: the arguments of a PING message. -/
structure Ping where
  arguments : List (List Char)
deriving DecidableEq, Repr

/-- `Message::as_ping` from `src/messages/ping.rs`: succeeds exactly when
the command is `PING`, exposing the arguments. -/
def Message.as_ping (m : Message) : Option Ping :=
  if m.command = PING then some (Ping.mk m.arguments) else none

/-- `Ping::pong` from `src/messages/ping.rs`: a `PONG` message with no
prefix carrying the same arguments. -/
def Ping.pong (p : Ping) : Message :=
  Message.mk Pfx.None PONG p.arguments

/-- `Privmsg` from `src/messages/privmsg.rs`.  The fields `from` and `to`
of the source are called `from_` and `to_` (the source's names are
keywords here). -/
structure Privmsg where
  from_ : UserInfo
  to_ : List Char
  text : List Char
deriving DecidableEq, Repr

/-- `Message::as_privmsg` from `src/messages/privmsg.rs`: requires command
`PRIVMSG`, exactly two arguments, and a user prefix — in that order of
checks; the two-element match models `arguments.get(0)/get(1)` under the
length guard. -/
def Message.as_privmsg (m : Message) : Option Privmsg :=
  if m.command ≠ PRIVMSG then none
  else if m.arguments.length ≠ 2 then none
  else
    match m.pfx, m.arguments with
    | Pfx.User u, a :: b :: _ => some (Privmsg.mk u a b)
    | _, _ => none

/- ------------------------------------------------------------------ -/
/- Specification-side definitions and proof-level predicates.          -/
/- ------------------------------------------------------------------ -/

/-- Specification-side argument serialisation, following the spec's words
for claim C6: each parameter is preceded by one space; the final parameter
is prefixed with `':'` exactly when it contains an embedded space; no other
parameter is ever prefixed with `':'`. -/
def fmtSpecArgs : List (List Char) → List Char
  | [] => []
  | [a] => ' ' :: (if a.contains ' ' then ':' :: a else a)
  | a :: b :: t => (' ' :: a) ++ fmtSpecArgs (b :: t)

/-- Specification-side serialisation of a whole message, following the
spec's words: the prefix (when present) with a leading `':'` and one
following space, then the command's display form, then the arguments as in
`fmtSpecArgs`. -/
def Message.fmtSpec (m : Message) : List Char :=
  (match m.pfx with
   | Pfx.None => []
   | Pfx.Server s => ':' :: (s ++ [' '])
   | Pfx.User u => ':' :: (u.display ++ [' '])) ++ m.command.display
    ++ fmtSpecArgs m.arguments

/-- The "next character fails `p`" side condition used by the maximal-run
lemmas. -/
def headFails (p : Char → Bool) (rest : List Char) : Prop :=
  ∀ d, rest.head? = some d → p d = false

/- ------------------------------------------------------------------ -/
/- Validity predicates (the domain of the amended round-trip claim).   -/
/- ------------------------------------------------------------------ -/

/-- A serialisable argument: nonempty and made of characters legal inside a
"middle" parameter (no NUL, CR, LF, space or colon). -/
def validArg (a : List Char) : Bool := !a.isEmpty && a.all nospcrlfcl

/-- The construction invariant of a `Command` as the spec states it:
a nonempty all-letter word, or a number of at most 3 digits. -/
def validCommandB : Command → Bool
  | Command.Word w => !w.isEmpty && w.all is_letter
  | Command.Number n => n ≤ 999

/-- A nonempty run of nickname characters. -/
def nickRunB (s : List Char) : Bool := !s.isEmpty && s.all is_nickname_char

/-- A nonempty run of username characters. -/
def userRunB (s : List Char) : Bool := !s.isEmpty && s.all is_username_char

/-- A nonempty run of host characters. -/
def hostRunB (s : List Char) : Bool := !s.isEmpty && s.all is_host_char

/-- The prefixes that the parser can reproduce: none; a user prefix whose
fields are wire-legal runs; or a server host that is a host-character run
containing at least one non-nickname character (such as `'.'`), without
which the parser would reparse it as a nickname. -/
def validPfxB : Pfx → Bool
  | Pfx.None => true
  | Pfx.Server h => hostRunB h && !(h.all is_nickname_char)
  | Pfx.User (UserInfo.Nick n) => nickRunB n
  | Pfx.User (UserInfo.NickHost n h) => nickRunB n && hostRunB h
  | Pfx.User (UserInfo.NickUserHost n u h) =>
      nickRunB n && userRunB u && hostRunB h

/-- The domain on which serialisation is inverted by the parser. -/
def validMessage (m : Message) : Bool :=
  validPfxB m.pfx && validCommandB m.command && m.arguments.all validArg

/-- Every character a successful run of `p` consumes satisfies `P`. -/
def ConsumedOk (P : Char → Prop) {α : Type _} (p : Parser α) : Prop :=
  ∀ i v r, p i = some (v, r) → ∃ pre, i = pre ++ r ∧ ∀ c ∈ pre, P c

/-- The no-line-feed predicate instantiating `ConsumedOk`. -/
abbrev NotLF (c : Char) : Prop := c ≠ '\n'

/- ------------------------------------------------------------------ -/
/- Helper lemmas: lists.                                               -/
/- ------------------------------------------------------------------ -/

theorem takeWhile_append_stop {p : Char → Bool} :
    ∀ (xs rest : List Char), (∀ c ∈ xs, p c = true) →
    (∀ d, rest.head? = some d → p d = false) →
    (xs ++ rest).takeWhile p = xs ∧ (xs ++ rest).dropWhile p = rest := by
  intro xs
  induction xs with
  | nil =>
    intro rest _ hstop
    cases rest with
    | nil => exact ⟨rfl, rfl⟩
    | cons d t =>
      have hd := hstop d rfl
      constructor
      · simp [List.takeWhile, hd]
      · simp [List.dropWhile, hd]
  | cons x xs ih =>
    intro rest hall hstop
    have hx : p x = true := hall x (by simp)
    have ihx := ih rest (fun c hc => hall c (by simp [hc])) hstop
    constructor
    · simp [List.takeWhile, hx, ihx.1]
    · simp [List.dropWhile, hx, ihx.2]

theorem dropWhile_head_fail {p : Char → Bool} :
    ∀ (l : List Char) (d : Char) (t : List Char),
    l.dropWhile p = d :: t → p d = false := by
  intro l
  induction l with
  | nil => intro d t h; simp [List.dropWhile] at h
  | cons x xs ih =>
    intro d t h
    by_cases hx : p x = true
    · exact ih d t (by simpa [List.dropWhile, hx] using h)
    · have hx' : p x = false := by simpa using hx
      simp [List.dropWhile, hx'] at h
      rw [← h.1]
      exact hx'

theorem mem_takeWhile_pred {p : Char → Bool} :
    ∀ (l : List Char) (c : Char), c ∈ l.takeWhile p → p c = true := by
  intro l
  induction l with
  | nil => intro c h; simp [List.takeWhile] at h
  | cons x xs ih =>
    intro c h
    by_cases hx : p x = true
    · simp [List.takeWhile, hx] at h
      rcases h with h | h
      · rw [h]; exact hx
      · exact ih c h
    · have hx' : p x = false := by simpa using hx
      simp [List.takeWhile, hx'] at h

theorem length_two_shape {α : Type _} :
    ∀ (l : List α), l.length = 2 → ∃ a b, l = [a, b] := by
  intro l h
  match l, h with
  | [a, b], _ => exact ⟨a, b, rfl⟩

/- ------------------------------------------------------------------ -/
/- Helper lemmas: basic parsers.                                       -/
/- ------------------------------------------------------------------ -/

theorem tag_exact (t r : List Char) : tag t (t ++ r) = some ((), r) := by
  have hpre : t.isPrefixOf (t ++ r) = true :=
    List.isPrefixOf_iff_prefix.mpr ⟨r, rfl⟩
  simp [tag, hpre]

theorem tag_cons_ne {x d : Char} (t r : List Char) (h : x ≠ d) :
    tag (x :: t) (d :: r) = none := by
  have : (x :: t).isPrefixOf (d :: r) = false := by
    simp [List.isPrefixOf]
    intro hxd
    exact absurd hxd h
  simp [tag, this]

theorem tag_nil_input {x : Char} (t : List Char) : tag (x :: t) [] = none := by
  simp [tag, List.isPrefixOf]

theorem takeWhile1_exact {p : Char → Bool} (xs rest : List Char)
    (hne : xs ≠ []) (hall : ∀ c ∈ xs, p c = true)
    (hstop : ∀ d, rest.head? = some d → p d = false) :
    takeWhile1 p (xs ++ rest) = some (xs, rest) := by
  have h := takeWhile_append_stop xs rest hall hstop
  simp [takeWhile1, h.1, h.2, hne]

theorem takeWhile1_head_fail {p : Char → Bool} {d : Char} (r : List Char)
    (h : p d = false) : takeWhile1 p (d :: r) = none := by
  simp [takeWhile1, List.takeWhile, h]

theorem takeWhile1_nil {p : Char → Bool} : takeWhile1 p [] = none := by
  simp [takeWhile1, List.takeWhile]

theorem takeWhile0_exact {p : Char → Bool} (xs rest : List Char)
    (hall : ∀ c ∈ xs, p c = true)
    (hstop : ∀ d, rest.head? = some d → p d = false) :
    takeWhile0 p (xs ++ rest) = some (xs, rest) := by
  have h := takeWhile_append_stop xs rest hall hstop
  simp [takeWhile0, h.1, h.2]

theorem headFails_cons {p : Char → Bool} {d : Char} (t : List Char)
    (h : p d = false) : headFails p (d :: t) := by
  intro e he
  simp only [List.head?_cons, Option.some.injEq] at he
  rw [← he]
  exact h

theorem headFails_nil {p : Char → Bool} : headFails p [] := by
  intro e he
  simp at he

/- ------------------------------------------------------------------ -/
/- Helper lemmas: character classes.                                   -/
/- ------------------------------------------------------------------ -/

theorem is_digit_not_letter {c : Char} (h : is_digit c = true) :
    is_letter c = false := by
  simp only [is_digit, Bool.and_eq_true, decide_eq_true_eq] at h
  rw [Bool.eq_false_iff]
  simp only [ne_eq, is_letter, Bool.or_eq_true, Bool.and_eq_true, decide_eq_true_eq]
  omega

theorem is_letter_ne {c d : Char} (h : is_letter c = true)
    (hd : is_letter d = false) : c ≠ d := by
  intro he
  rw [he, hd] at h
  exact Bool.false_ne_true h

theorem is_digit_ne {c d : Char} (h : is_digit c = true)
    (hd : is_digit d = false) : c ≠ d := by
  intro he
  rw [he, hd] at h
  exact Bool.false_ne_true h

theorem is_host_char_ne {c d : Char} (h : is_host_char c = true)
    (hd : is_host_char d = false) : c ≠ d := by
  intro he
  rw [he, hd] at h
  exact Bool.false_ne_true h

theorem nospcrlfcl_ne {c d : Char} (h : nospcrlfcl c = true)
    (hd : nospcrlfcl d = false) : c ≠ d := by
  intro he
  rw [he, hd] at h
  exact Bool.false_ne_true h

/- ------------------------------------------------------------------ -/
/- Helper lemmas: the prefix grammar on well-formed inputs.            -/
/- ------------------------------------------------------------------ -/

theorem user_info_full (n u h rest : List Char)
    (hn : n ≠ []) (hnall : ∀ c ∈ n, is_nickname_char c = true)
    (hu : u ≠ []) (huall : ∀ c ∈ u, is_username_char c = true)
    (hh : h ≠ []) (hhall : ∀ c ∈ h, is_host_char c = true)
    (hstop : headFails is_host_char rest) :
    user_info (n ++ '!' :: (u ++ '@' :: (h ++ rest)))
      = some (UserInfo.NickUserHost n u h, rest) := by
  have h1 : nickname (n ++ '!' :: (u ++ '@' :: (h ++ rest)))
      = some (n, '!' :: (u ++ '@' :: (h ++ rest))) :=
    takeWhile1_exact _ _ hn hnall (headFails_cons _ (by decide))
  have h2 : tag ['!'] ('!' :: (u ++ '@' :: (h ++ rest)))
      = some ((), u ++ '@' :: (h ++ rest)) := tag_exact ['!'] _
  have h3 : username (u ++ '@' :: (h ++ rest)) = some (u, '@' :: (h ++ rest)) :=
    takeWhile1_exact _ _ hu huall (headFails_cons _ (by decide))
  have h4 : tag ['@'] ('@' :: (h ++ rest)) = some ((), h ++ rest) :=
    tag_exact ['@'] _
  have h5 : host (h ++ rest) = some (h, rest) :=
    takeWhile1_exact _ _ hh hhall hstop
  simp [user_info, alt, user_full, pbind, pmap, h1, h2, h3, h4, h5]

theorem user_info_nickhost (n h rest : List Char)
    (hn : n ≠ []) (hnall : ∀ c ∈ n, is_nickname_char c = true)
    (hh : h ≠ []) (hhall : ∀ c ∈ h, is_host_char c = true)
    (hstop : headFails is_host_char rest) :
    user_info (n ++ '@' :: (h ++ rest)) = some (UserInfo.NickHost n h, rest) := by
  have h1 : nickname (n ++ '@' :: (h ++ rest)) = some (n, '@' :: (h ++ rest)) :=
    takeWhile1_exact _ _ hn hnall (headFails_cons _ (by decide))
  have h2 : tag ['!'] ('@' :: (h ++ rest)) = none := tag_cons_ne _ _ (by decide)
  have h3 : tag ['@'] ('@' :: (h ++ rest)) = some ((), h ++ rest) :=
    tag_exact ['@'] _
  have h4 : host (h ++ rest) = some (h, rest) :=
    takeWhile1_exact _ _ hh hhall hstop
  simp [user_info, alt, user_full, user_nickhost, pbind, pmap, h1, h2, h3, h4]

theorem user_info_nick_only (n : List Char) (d : Char) (rest : List Char)
    (hn : n ≠ []) (hnall : ∀ c ∈ n, is_nickname_char c = true)
    (hd : is_nickname_char d = false) (hd1 : d ≠ '!') (hd2 : d ≠ '@') :
    user_info (n ++ d :: rest) = some (UserInfo.Nick n, d :: rest) := by
  have h1 : nickname (n ++ d :: rest) = some (n, d :: rest) :=
    takeWhile1_exact _ _ hn hnall (headFails_cons _ hd)
  have h210 : tag ['!'] (d :: rest) = none := tag_cons_ne _ _ (Ne.symm hd1)
  have h220 : tag ['@'] (d :: rest) = none := tag_cons_ne _ _ (Ne.symm hd2)
  simp [user_info, alt, user_full, user_nickhost, user_nick_only,
        pbind, pmap, h1, h210, h220]

theorem pfx_user_full (n u h rest : List Char)
    (hn : n ≠ []) (hnall : ∀ c ∈ n, is_nickname_char c = true)
    (hu : u ≠ []) (huall : ∀ c ∈ u, is_username_char c = true)
    (hh : h ≠ []) (hhall : ∀ c ∈ h, is_host_char c = true) :
    pfx (':' :: (n ++ '!' :: (u ++ '@' :: (h ++ ' ' :: rest))))
      = some (Pfx.User (UserInfo.NickUserHost n u h), rest) := by
  have h0 : tag [':'] (':' :: (n ++ '!' :: (u ++ '@' :: (h ++ ' ' :: rest))))
      = some ((), n ++ '!' :: (u ++ '@' :: (h ++ ' ' :: rest))) := tag_exact [':'] _
  have h1 := user_info_full n u h (' ' :: rest) hn hnall hu huall hh hhall
    (headFails_cons _ (by decide))
  have h2 : tag [' '] (' ' :: rest) = some ((), rest) := tag_exact [' '] _
  simp [pfx, preceded, terminated, alt, pbind, pmap, user_pfx, h0, h1, h2]

theorem pfx_user_nickhost (n h rest : List Char)
    (hn : n ≠ []) (hnall : ∀ c ∈ n, is_nickname_char c = true)
    (hh : h ≠ []) (hhall : ∀ c ∈ h, is_host_char c = true) :
    pfx (':' :: (n ++ '@' :: (h ++ ' ' :: rest)))
      = some (Pfx.User (UserInfo.NickHost n h), rest) := by
  have h0 : tag [':'] (':' :: (n ++ '@' :: (h ++ ' ' :: rest)))
      = some ((), n ++ '@' :: (h ++ ' ' :: rest)) := tag_exact [':'] _
  have h1 := user_info_nickhost n h (' ' :: rest) hn hnall hh hhall
    (headFails_cons _ (by decide))
  have h2 : tag [' '] (' ' :: rest) = some ((), rest) := tag_exact [' '] _
  simp [pfx, preceded, terminated, alt, pbind, pmap, user_pfx, h0, h1, h2]

theorem pfx_user_nick (n rest : List Char)
    (hn : n ≠ []) (hnall : ∀ c ∈ n, is_nickname_char c = true) :
    pfx (':' :: (n ++ ' ' :: rest)) = some (Pfx.User (UserInfo.Nick n), rest) := by
  have h0 : tag [':'] (':' :: (n ++ ' ' :: rest)) = some ((), n ++ ' ' :: rest) :=
    tag_exact [':'] _
  have h1 := user_info_nick_only n ' ' rest hn hnall (by decide) (by decide) (by decide)
  have h2 : tag [' '] (' ' :: rest) = some ((), rest) := tag_exact [' '] _
  simp [pfx, preceded, terminated, alt, pbind, pmap, user_pfx, h0, h1, h2]

theorem pfx_server (h rest : List Char)
    (hh : h ≠ []) (hhall : ∀ c ∈ h, is_host_char c = true)
    (hnot : ¬ ∀ c ∈ h, is_nickname_char c = true) :
    pfx (':' :: (h ++ ' ' :: rest)) = some (Pfx.Server h, rest) := by
  have h0 : tag [':'] (':' :: (h ++ ' ' :: rest)) = some ((), h ++ ' ' :: rest) :=
    tag_exact [':'] _
  have hsplit : h.takeWhile is_nickname_char ++ h.dropWhile is_nickname_char = h :=
    List.takeWhile_append_dropWhile is_nickname_char h
  have hdropne : h.dropWhile is_nickname_char ≠ [] := by
    intro he
    exact hnot (fun c hc => List.dropWhile_eq_nil_iff.mp he c hc)
  obtain ⟨d, t1, hdt⟩ : ∃ d t1, h.dropWhile is_nickname_char = d :: t1 := by
    cases hcase : h.dropWhile is_nickname_char with
    | nil => exact absurd hcase hdropne
    | cons d t1 => exact ⟨d, t1, rfl⟩
  have hdnick : is_nickname_char d = false := dropWhile_head_fail _ _ _ hdt
  have hdmem : d ∈ h := by
    rw [← hsplit, hdt]
    simp
  have hdhost : is_host_char d = true := hhall d hdmem
  have hdbang : d ≠ '!' := is_host_char_ne hdhost (by decide)
  have hdat : d ≠ '@' := is_host_char_ne hdhost (by decide)
  have hdsp : d ≠ ' ' := is_host_char_ne hdhost (by decide)
  have hX : h ++ ' ' :: rest
      = h.takeWhile is_nickname_char ++ (d :: (t1 ++ ' ' :: rest)) := by
    conv_lhs => rw [← hsplit, hdt]
    simp
  have huserbranch :
      terminated user_pfx (tag [' ']) (h ++ ' ' :: rest) = none := by
    by_cases hn0e : h.takeWhile is_nickname_char = []
    · have hnick : nickname (h ++ ' ' :: rest) = none := by
        rw [hX, hn0e, List.nil_append]
        exact takeWhile1_head_fail _ hdnick
      simp [terminated, user_pfx, user_info, alt, user_full, user_nickhost,
            user_nick_only, pbind, pmap, hnick]
    · have hnick : nickname (h ++ ' ' :: rest)
          = some (h.takeWhile is_nickname_char, d :: (t1 ++ ' ' :: rest)) := by
        rw [hX]
        exact takeWhile1_exact _ _ hn0e
          (fun c hc => mem_takeWhile_pred _ c hc) (headFails_cons _ hdnick)
      have ht1 : tag ['!'] (d :: (t1 ++ ' ' :: rest)) = none :=
        tag_cons_ne _ _ (Ne.symm hdbang)
      have ht2 : tag ['@'] (d :: (t1 ++ ' ' :: rest)) = none :=
        tag_cons_ne _ _ (Ne.symm hdat)
      have ht3 : tag [' '] (d :: (t1 ++ ' ' :: rest)) = none :=
        tag_cons_ne _ _ (Ne.symm hdsp)
      simp [terminated, user_pfx, user_info, alt, user_full, user_nickhost,
            user_nick_only, pbind, pmap, hnick, ht1, ht2, ht3]
  have hhost : host (h ++ ' ' :: rest) = some (h, ' ' :: rest) :=
    takeWhile1_exact _ _ hh hhall (headFails_cons _ (by decide))
  have hsp : tag [' '] (' ' :: rest) = some ((), rest) := tag_exact [' '] _
  simp only [pfx, preceded, pbind, h0]
  simp only [alt, huserbranch]
  simp [terminated, server_pfx, pbind, pmap, hhost, hsp]

theorem pfx_head_ne (d : Char) (t : List Char) (hd : d ≠ ':') :
    pfx (d :: t) = none := by
  have h0 : tag [':'] (d :: t) = none := tag_cons_ne _ _ (Ne.symm hd)
  simp [pfx, preceded, pbind, h0]

/- ------------------------------------------------------------------ -/
/- Helper lemmas: the command grammar and decimal display.             -/
/- ------------------------------------------------------------------ -/

theorem command_word_exact (w rest : List Char)
    (hw : w ≠ []) (hall : ∀ c ∈ w, is_letter c = true)
    (hstop : headFails is_letter rest) :
    command (w ++ rest) = some (Command.Word w, rest) := by
  have h1 : takeWhile1 is_letter (w ++ rest) = some (w, rest) :=
    takeWhile1_exact _ _ hw hall hstop
  simp [command, alt, word_command, pmap, h1, make_word]

theorem command_number_exact (ds rest : List Char)
    (hds : ds ≠ []) (hall : ∀ c ∈ ds, is_digit c = true)
    (hstop : headFails is_digit rest) :
    command (ds ++ rest) = some (make_number ds, rest) := by
  obtain ⟨d0, ds', rfl⟩ : ∃ d0 ds', ds = d0 :: ds' := by
    cases ds with
    | nil => exact absurd rfl hds
    | cons d0 ds' => exact ⟨d0, ds', rfl⟩
  have hl : is_letter d0 = false := is_digit_not_letter (hall d0 (by simp))
  have h1 : takeWhile1 is_letter (d0 :: (ds' ++ rest)) = none :=
    takeWhile1_head_fail _ hl
  have h2 : takeWhile1 is_digit ((d0 :: ds') ++ rest) = some (d0 :: ds', rest) :=
    takeWhile1_exact _ _ (by simp) hall hstop
  simp only [List.cons_append] at h2
  simp [command, alt, word_command, numeric_command, pmap, h1, h2]

theorem decValue_append_digit (s : List Char) (c : Char) :
    decValue (s ++ [c]) = 10 * decValue s + (c.toNat - 48) := by
  simp [decValue, List.foldl_append]

theorem digitChar_toNat {d : Nat} (h : d < 10) :
    (Nat.digitChar d).toNat = 48 + d := by
  interval_cases d <;> decide

theorem digitChar_is_digit {d : Nat} (h : d < 10) :
    is_digit (Nat.digitChar d) = true := by
  interval_cases d <;> decide

theorem decValue_rev_digits :
    ∀ (L : List Nat), (∀ d ∈ L, d < 10) →
    decValue (L.reverse.map Nat.digitChar) = Nat.ofDigits 10 L := by
  intro L
  induction L with
  | nil => intro _; simp [decValue, Nat.ofDigits]
  | cons d T ih =>
    intro hall
    have hd : d < 10 := hall d (by simp)
    have ihT := ih (fun e he => hall e (by simp [he]))
    rw [List.reverse_cons, List.map_append, List.map_cons, List.map_nil,
        decValue_append_digit, ihT, Nat.ofDigits_cons, digitChar_toNat hd]
    omega

theorem decValue_replicate_zero (k : Nat) (s : List Char) :
    decValue (List.replicate k '0' ++ s) = decValue s := by
  induction k with
  | zero => simp
  | succ k ih =>
    have hstep : decValue (List.replicate (k + 1) '0' ++ s)
        = decValue (List.replicate k '0' ++ s) := by
      simp only [List.replicate_succ, List.cons_append]
      rfl
    rw [hstep, ih]

theorem decValue_decimalRep (n : Nat) : decValue (decimalRep n) = n := by
  by_cases h : n = 0
  · subst h; decide
  · simp only [decimalRep, h, if_false]
    rw [decValue_rev_digits _ (fun d hd => Nat.digits_lt_base (by norm_num) hd)]
    exact Nat.ofDigits_digits 10 n

theorem decValue_padLeft3 (n : Nat) : decValue (padLeft3 (decimalRep n)) = n := by
  simp only [padLeft3]
  rw [decValue_replicate_zero, decValue_decimalRep]

theorem decimalRep_ne_nil (n : Nat) : decimalRep n ≠ [] := by
  by_cases h : n = 0
  · subst h; decide
  · simp only [decimalRep, h, if_false]
    simp [Nat.digits_ne_nil_iff_ne_zero, h]

theorem decimalRep_all_digits (n : Nat) :
    ∀ c ∈ decimalRep n, is_digit c = true := by
  by_cases h : n = 0
  · subst h; decide
  · simp only [decimalRep, h, if_false]
    intro c hc
    simp only [List.mem_map, List.mem_reverse] at hc
    obtain ⟨d, hd, rfl⟩ := hc
    exact digitChar_is_digit (Nat.digits_lt_base (by norm_num) hd)

theorem padLeft3_all_digits (n : Nat) :
    ∀ c ∈ padLeft3 (decimalRep n), is_digit c = true := by
  intro c hc
  simp only [padLeft3, List.mem_append, List.mem_replicate] at hc
  rcases hc with hc | hc
  · rw [hc.2]; decide
  · exact decimalRep_all_digits n c hc

theorem padLeft3_ne_nil (n : Nat) : padLeft3 (decimalRep n) ≠ [] := by
  simp [padLeft3, List.append_eq_nil, decimalRep_ne_nil n]

theorem command_display_exact (c : Command) (rest : List Char)
    (hv : validCommandB c = true)
    (hstopL : headFails is_letter rest) (hstopD : headFails is_digit rest) :
    command (c.display ++ rest) = some (c, rest) := by
  cases c with
  | Word w =>
    simp only [validCommandB, Bool.and_eq_true, List.all_eq_true,
               Bool.not_eq_true', List.isEmpty_eq_false] at hv
    exact command_word_exact w rest hv.1 hv.2 hstopL
  | Number n =>
    simp only [validCommandB, decide_eq_true_eq] at hv
    have h1 := command_number_exact (padLeft3 (decimalRep n)) rest
      (padLeft3_ne_nil n) (padLeft3_all_digits n) hstopD
    rw [Command.display, h1, make_number, decValue_padLeft3]
    have : n ≤ 65535 := by omega
    simp [this]

theorem display_head_class (c : Command) (hv : validCommandB c = true) :
    ∃ d0 t0, c.display = d0 :: t0 ∧ (is_letter d0 = true ∨ is_digit d0 = true) := by
  cases c with
  | Word w =>
    simp only [validCommandB, Bool.and_eq_true, List.all_eq_true,
               Bool.not_eq_true', List.isEmpty_eq_false] at hv
    cases w with
    | nil => exact absurd rfl hv.1
    | cons d0 t0 => exact ⟨d0, t0, rfl, Or.inl (hv.2 d0 (by simp))⟩
  | Number n =>
    cases hp : padLeft3 (decimalRep n) with
    | nil => exact absurd hp (padLeft3_ne_nil n)
    | cons d0 t0 =>
      refine ⟨d0, t0, hp, Or.inr ?_⟩
      exact padLeft3_all_digits n d0 (by rw [hp]; simp)

/- ------------------------------------------------------------------ -/
/- Helper lemmas: what a parser consumes.                              -/
/- ------------------------------------------------------------------ -/

theorem some_pair_inj {α β : Type _} {a c : α} {b d : β}
    (h : some (a, b) = some (c, d)) : a = c ∧ b = d := by
  have h2 := Option.some.inj h
  exact ⟨congrArg Prod.fst h2, congrArg Prod.snd h2⟩

theorem tag_shape (t : List Char) :
    ∀ i u r, tag t i = some (u, r) → i = t ++ r := by
  intro i u r h
  simp only [tag] at h
  by_cases hpre : t.isPrefixOf i = true
  · rw [if_pos hpre] at h
    obtain ⟨s, rfl⟩ := List.isPrefixOf_iff_prefix.mp hpre
    have hdrop : (t ++ s).drop t.length = s := List.drop_left t s
    rw [hdrop] at h
    rw [← (some_pair_inj h).2]
  · rw [if_neg hpre] at h
    exact absurd h (by simp)

theorem consumedOk_tag {P : Char → Prop} (t : List Char) (h : ∀ c ∈ t, P c) :
    ConsumedOk P (tag t) := by
  intro i v r hp
  exact ⟨t, tag_shape t i v r hp, h⟩

theorem consumedOk_takeWhile1 {P : Char → Prop} (p : Char → Bool)
    (h : ∀ c, p c = true → P c) : ConsumedOk P (takeWhile1 p) := by
  intro i v r hp
  simp only [takeWhile1] at hp
  split at hp
  · exact absurd hp (by simp)
  · obtain ⟨rfl, rfl⟩ := some_pair_inj hp
    exact ⟨i.takeWhile p, (List.takeWhile_append_dropWhile p i).symm,
      fun c hc => h c (mem_takeWhile_pred i c hc)⟩

theorem consumedOk_takeWhile0 {P : Char → Prop} (p : Char → Bool)
    (h : ∀ c, p c = true → P c) : ConsumedOk P (takeWhile0 p) := by
  intro i v r hp
  simp only [takeWhile0] at hp
  obtain ⟨rfl, rfl⟩ := some_pair_inj hp
  exact ⟨i.takeWhile p, (List.takeWhile_append_dropWhile p i).symm,
    fun c hc => h c (mem_takeWhile_pred i c hc)⟩

theorem consumedOk_pmap {P : Char → Prop} {α β : Type _} {p : Parser α}
    (f : α → β) (hp : ConsumedOk P p) : ConsumedOk P (pmap f p) := by
  intro i v r h
  simp only [pmap] at h
  cases hcase : p i with
  | none => rw [hcase] at h; exact absurd h (by simp)
  | some ar =>
    obtain ⟨a, r1⟩ := ar
    rw [hcase] at h
    obtain ⟨-, rfl⟩ := some_pair_inj h
    exact hp i a r1 hcase

theorem consumedOk_pbind {P : Char → Prop} {α β : Type _} {p : Parser α}
    {f : α → Parser β} (hp : ConsumedOk P p) (hf : ∀ a, ConsumedOk P (f a)) :
    ConsumedOk P (pbind p f) := by
  intro i v r h
  simp only [pbind] at h
  cases hcase : p i with
  | none => rw [hcase] at h; exact absurd h (by simp)
  | some ar =>
    obtain ⟨a, r1⟩ := ar
    rw [hcase] at h
    obtain ⟨pre1, hi, h1⟩ := hp i a r1 hcase
    obtain ⟨pre2, hr1, h2⟩ := hf a r1 v r h
    refine ⟨pre1 ++ pre2, ?_, ?_⟩
    · rw [hi, hr1, List.append_assoc]
    · intro c hc
      rcases List.mem_append.mp hc with hc | hc
      · exact h1 c hc
      · exact h2 c hc

theorem consumedOk_alt {P : Char → Prop} {α : Type _} {p q : Parser α}
    (hp : ConsumedOk P p) (hq : ConsumedOk P q) : ConsumedOk P (alt p q) := by
  intro i v r h
  simp only [alt] at h
  cases hcase : p i with
  | none => rw [hcase] at h; exact hq i v r h
  | some ar =>
    obtain ⟨a, r1⟩ := ar
    rw [hcase] at h
    obtain ⟨rfl, rfl⟩ := some_pair_inj h
    exact hp i a r1 hcase

theorem consumedOk_opt {P : Char → Prop} {α : Type _} {p : Parser α}
    (hp : ConsumedOk P p) : ConsumedOk P (opt p) := by
  intro i v r h
  simp only [opt] at h
  cases hcase : p i with
  | none =>
    rw [hcase] at h
    obtain ⟨-, rfl⟩ := some_pair_inj h
    exact ⟨[], rfl, by simp⟩
  | some ar =>
    obtain ⟨a, r1⟩ := ar
    rw [hcase] at h
    obtain ⟨-, rfl⟩ := some_pair_inj h
    exact hp i a r1 hcase

theorem consumedOk_preceded {P : Char → Prop} {α β : Type _} {p : Parser α}
    {q : Parser β} (hp : ConsumedOk P p) (hq : ConsumedOk P q) :
    ConsumedOk P (preceded p q) :=
  consumedOk_pbind hp (fun _ => hq)

theorem consumedOk_terminated {P : Char → Prop} {α β : Type _} {p : Parser α}
    {q : Parser β} (hp : ConsumedOk P p) (hq : ConsumedOk P q) :
    ConsumedOk P (terminated p q) :=
  consumedOk_pbind hp (fun a => consumedOk_pmap (fun _ => a) hq)

/- ------------------------------------------------------------------ -/
/- Helper lemmas: the params loop.                                     -/
/- ------------------------------------------------------------------ -/

theorem consumedOk_true_takeWhile1 (p : Char → Bool) :
    ConsumedOk (fun _ => True) (takeWhile1 p) :=
  consumedOk_takeWhile1 p (fun _ _ => trivial)

theorem consumedOk_paramBody :
    ConsumedOk (fun _ => True) (alt param final_param) :=
  consumedOk_alt (consumedOk_true_takeWhile1 nospcrlfcl)
    (consumedOk_preceded (consumedOk_tag [':'] (by simp))
      (consumedOk_takeWhile0 trailing_char (fun _ _ => trivial)))

theorem paramStep_strict :
    ∀ i a r, paramStep i = some (a, r) → r.length < i.length := by
  intro i a r h
  simp only [paramStep, preceded, pbind] at h
  cases hcase : tag [' '] i with
  | none => rw [hcase] at h; exact absurd h (by simp)
  | some ur =>
    obtain ⟨u, i1⟩ := ur
    rw [hcase] at h
    have hi : i = ' ' :: i1 := tag_shape [' '] i u i1 hcase
    obtain ⟨pre, hi1, -⟩ := consumedOk_paramBody i1 a r h
    rw [hi, hi1]
    simp only [List.length_cons, List.length_append]
    omega

theorem paramStep_nil : paramStep [] = none := by
  simp [paramStep, preceded, pbind, tag_nil_input]

theorem paramStep_head_ne {d : Char} (t : List Char) (hd : d ≠ ' ') :
    paramStep (d :: t) = none := by
  have h0 : tag [' '] (d :: t) = none := tag_cons_ne _ _ (Ne.symm hd)
  simp [paramStep, preceded, pbind, h0]

theorem paramStep_middle (a rest : List Char)
    (ha : a ≠ []) (hall : ∀ c ∈ a, nospcrlfcl c = true)
    (hstop : headFails nospcrlfcl rest) :
    paramStep (' ' :: (a ++ rest)) = some (a, rest) := by
  have h0 : tag [' '] (' ' :: (a ++ rest)) = some ((), a ++ rest) :=
    tag_exact [' '] _
  have h1 : takeWhile1 nospcrlfcl (a ++ rest) = some (a, rest) :=
    takeWhile1_exact _ _ ha hall hstop
  simp [paramStep, preceded, pbind, alt, param, h0, h1]

theorem paramsAux_fuel_congr :
    ∀ fuel i, i.length ≤ fuel → paramsAux fuel i = paramsAux i.length i := by
  intro fuel
  induction fuel using Nat.strong_induction_on with
  | _ fuel ih =>
    intro i hlen
    match fuel with
    | 0 =>
      have hnil : i = [] := List.length_eq_zero.mp (Nat.le_zero.mp hlen)
      subst hnil
      rfl
    | f + 1 =>
      cases hcase : paramStep i with
      | none =>
        cases hl : i.length with
        | zero =>
          have hnil : i = [] := List.length_eq_zero.mp hl
          subst hnil
          simp [paramsAux, hcase]
        | succ k =>
          simp [paramsAux, hcase]
      | some ar =>
        obtain ⟨a, r⟩ := ar
        have hlt := paramStep_strict i a r hcase
        cases hl : i.length with
        | zero => omega
        | succ k =>
          have h1 : paramsAux (f + 1) i
              = (a :: (paramsAux f r).1, (paramsAux f r).2) := by
            simp [paramsAux, hcase]
          have h2 : paramsAux (k + 1) i
              = (a :: (paramsAux k r).1, (paramsAux k r).2) := by
            simp [paramsAux, hcase]
          have e1 := ih f (by omega) r (by omega)
          have e2 := ih k (by omega) r (by omega)
          rw [h1, h2, e1, e2]

theorem params_step_none {i : List Char} (h : paramStep i = none) :
    params i = some ([], i) := by
  cases hl : i.length with
  | zero => simp [params, hl, paramsAux]
  | succ k => simp [params, hl, paramsAux, h]

theorem params_step_some {i a r : List Char} (h : paramStep i = some (a, r)) :
    params i = some (a :: (paramsAux r.length r).1, (paramsAux r.length r).2) := by
  have hlt := paramStep_strict i a r h
  obtain ⟨k, hk⟩ : ∃ k, i.length = k + 1 := ⟨i.length - 1, by omega⟩
  have hcongr := paramsAux_fuel_congr k r (by omega)
  simp [params, hk, paramsAux, h, hcongr]

theorem params_join_exact :
    ∀ (args : List (List Char)) (rest0 : List Char),
    (∀ a ∈ args, a ≠ [] ∧ ∀ c ∈ a, nospcrlfcl c = true) →
    (∀ d, rest0.head? = some d → d ≠ ' ' ∧ nospcrlfcl d = false) →
    params ((args.map (fun a => ' ' :: a)).flatten ++ rest0) = some (args, rest0) := by
  intro args
  induction args with
  | nil =>
    intro rest0 _ hstop
    have hstep : paramStep rest0 = none := by
      cases rest0 with
      | nil => exact paramStep_nil
      | cons d t => exact paramStep_head_ne t (hstop d rfl).1
    simpa using params_step_none hstep
  | cons a t ih =>
    intro rest0 hargs hstop
    have ha := hargs a (by simp)
    have hinput : (((a :: t).map (fun a => ' ' :: a)).flatten ++ rest0)
        = ' ' :: (a ++ ((t.map (fun a => ' ' :: a)).flatten ++ rest0)) := by
      simp
    have hstop2 : headFails nospcrlfcl
        ((t.map (fun a => ' ' :: a)).flatten ++ rest0) := by
      cases t with
      | nil =>
        intro d hd
        simp only [List.map_nil, List.flatten_nil, List.nil_append] at hd
        exact (hstop d hd).2
      | cons b t' =>
        intro d hd
        have hsp : (((b :: t').map (fun a => ' ' :: a)).flatten ++ rest0).head?
            = some ' ' := by simp
        have hd' : d = ' ' := (Option.some.inj (hsp.symm.trans hd)).symm
        rw [hd']
        decide
    have hstep := paramStep_middle a ((t.map (fun a => ' ' :: a)).flatten ++ rest0)
      ha.1 ha.2 hstop2
    have hrec := ih rest0 (fun b hb => hargs b (by simp [hb])) hstop
    rw [hinput, params_step_some hstep]
    have hres : paramsAux ((t.map (fun a => ' ' :: a)).flatten ++ rest0).length
        ((t.map (fun a => ' ' :: a)).flatten ++ rest0) = (t, rest0) :=
      Option.some.inj hrec
    rw [hres]

/- ------------------------------------------------------------------ -/
/- The round trip on the valid domain.                                 -/
/- ------------------------------------------------------------------ -/

theorem serializeArgsFrom_no_space :
    ∀ (args : List (List Char)) (total i : Nat),
    (∀ a ∈ args, a.contains ' ' = false) →
    serializeArgsFrom total i args = (args.map (fun a => ' ' :: a)).flatten := by
  intro args
  induction args with
  | nil => intro total i _; rfl
  | cons a t ih =>
    intro total i h
    have ha : a.contains ' ' = false := h a (by simp)
    have ha' : ' ' ∉ a := by simpa using ha
    simp [serializeArgsFrom, ha, ha',
          ih total (i + 1) (fun b hb => h b (by simp [hb]))]

theorem validArg_no_space {a : List Char} (h : validArg a = true) :
    a.contains ' ' = false := by
  simp only [validArg, Bool.and_eq_true, List.all_eq_true,
             Bool.not_eq_true', List.isEmpty_eq_false] at h
  by_cases hm : ' ' ∈ a
  · exact absurd (h.2 ' ' hm) (by decide)
  · simpa using hm

theorem validArg_parts {a : List Char} (h : validArg a = true) :
    a ≠ [] ∧ ∀ c ∈ a, nospcrlfcl c = true := by
  simpa only [validArg, Bool.and_eq_true, List.all_eq_true,
              Bool.not_eq_true', List.isEmpty_eq_false] using h

/-- The shared core of the round-trip results: on the valid domain,
parsing the wire text of a serialised message returns the message with an
empty remainder. -/
theorem round_trip_valid (m : Message) (hv : validMessage m = true) :
    Message.parse (Message.fmt m ++ ['\r', '\n']) = some (m, []) := by
  obtain ⟨p, c, args⟩ := m
  simp only [validMessage, Bool.and_eq_true] at hv
  obtain ⟨⟨hp, hc⟩, hargs⟩ := hv
  have hargs' : ∀ a ∈ args, a ≠ [] ∧ ∀ ch ∈ a, nospcrlfcl ch = true := by
    intro a ha
    exact validArg_parts (List.all_eq_true.mp hargs a ha)
  -- the serialised argument block
  have hargsStr : serializeArgsFrom args.length 0 args
      = (args.map (fun a => ' ' :: a)).flatten :=
    serializeArgsFrom_no_space args args.length 0
      (fun a ha => validArg_no_space (List.all_eq_true.mp hargs a ha))
  -- params consumes the argument block, stopping at the CR
  have hparams : params ((args.map (fun a => ' ' :: a)).flatten ++ ['\r', '\n'])
      = some (args, ['\r', '\n']) :=
    params_join_exact args ['\r', '\n'] hargs'
      (by
        intro d hd
        simp only [List.head?_cons, Option.some.injEq] at hd
        rw [← hd]
        exact ⟨by decide, by decide⟩)
  -- the command consumes its display, stopping at the argument block
  have hstopL : headFails is_letter
      ((args.map (fun a => ' ' :: a)).flatten ++ ['\r', '\n']) := by
    cases args with
    | nil => exact headFails_cons _ (by decide)
    | cons a t =>
      intro d hd
      have hsp : (((a :: t).map (fun a => ' ' :: a)).flatten ++ ['\r', '\n']).head?
          = some ' ' := by simp
      have hd' : d = ' ' := (Option.some.inj (hsp.symm.trans hd)).symm
      rw [hd']
      decide
  have hstopD : headFails is_digit
      ((args.map (fun a => ' ' :: a)).flatten ++ ['\r', '\n']) := by
    cases args with
    | nil => exact headFails_cons _ (by decide)
    | cons a t =>
      intro d hd
      have hsp : (((a :: t).map (fun a => ' ' :: a)).flatten ++ ['\r', '\n']).head?
          = some ' ' := by simp
      have hd' : d = ' ' := (Option.some.inj (hsp.symm.trans hd)).symm
      rw [hd']
      decide
  have hcommand : command (c.display
      ++ ((args.map (fun a => ' ' :: a)).flatten ++ ['\r', '\n']))
      = some (c, (args.map (fun a => ' ' :: a)).flatten ++ ['\r', '\n']) :=
    command_display_exact c _ hc hstopL hstopD
  -- the prefix
  have hpfx : opt pfx (Pfx.display p ++ (c.display
      ++ ((args.map (fun a => ' ' :: a)).flatten ++ ['\r', '\n'])))
      = some (some p, c.display
          ++ ((args.map (fun a => ' ' :: a)).flatten ++ ['\r', '\n']))
      ∨ (p = Pfx.None ∧ opt pfx (Pfx.display p ++ (c.display
      ++ ((args.map (fun a => ' ' :: a)).flatten ++ ['\r', '\n'])))
      = some (none, c.display
          ++ ((args.map (fun a => ' ' :: a)).flatten ++ ['\r', '\n']))) := by
    cases p with
    | None =>
      right
      refine ⟨rfl, ?_⟩
      obtain ⟨d0, t0, hdisp, hclass⟩ := display_head_class c hc
      have hd0 : d0 ≠ ':' := by
        rcases hclass with hL | hD
        · exact is_letter_ne hL (by decide)
        · exact is_digit_ne hD (by decide)
      have hnone : pfx (d0 :: (t0
          ++ ((args.map (fun a => ' ' :: a)).flatten ++ ['\r', '\n']))) = none :=
        pfx_head_ne d0 _ hd0
      simp only [Pfx.display, List.nil_append, hdisp, List.cons_append]
      simp [opt, hnone]
    | Server s =>
      left
      simp only [validPfxB, Bool.and_eq_true, Bool.not_eq_true',
                 List.all_eq_false] at hp
      obtain ⟨hrun, hnot⟩ := hp
      simp only [hostRunB, Bool.and_eq_true, List.all_eq_true,
                 Bool.not_eq_true', List.isEmpty_eq_false] at hrun
      have hsrv := pfx_server s (c.display
          ++ ((args.map (fun a => ' ' :: a)).flatten ++ ['\r', '\n']))
        hrun.1 hrun.2
        (by
          intro hall
          obtain ⟨x, hx, hxf⟩ := hnot
          rw [hall x hx] at hxf
          exact hxf rfl)
      simp only [Pfx.display, List.cons_append, List.append_assoc,
                 List.cons_append] at *
      simp [opt, hsrv]
    | User ui =>
      left
      cases ui with
      | Nick n =>
        simp only [validPfxB, nickRunB, Bool.and_eq_true, List.all_eq_true,
                   Bool.not_eq_true', List.isEmpty_eq_false] at hp
        have huser := pfx_user_nick n (c.display
            ++ ((args.map (fun a => ' ' :: a)).flatten ++ ['\r', '\n']))
          hp.1 hp.2
        simp only [Pfx.display, UserInfo.display, List.cons_append,
                   List.append_assoc] at *
        simp [opt, huser]
      | NickHost n h =>
        simp only [validPfxB, nickRunB, hostRunB, Bool.and_eq_true,
                   List.all_eq_true, Bool.not_eq_true',
                   List.isEmpty_eq_false] at hp
        have huser := pfx_user_nickhost n h (c.display
            ++ ((args.map (fun a => ' ' :: a)).flatten ++ ['\r', '\n']))
          hp.1.1 hp.1.2 hp.2.1 hp.2.2
        simp only [Pfx.display, UserInfo.display, List.cons_append,
                   List.append_assoc] at *
        simp [opt, huser]
      | NickUserHost n u h =>
        simp only [validPfxB, nickRunB, userRunB, hostRunB, Bool.and_eq_true,
                   List.all_eq_true, Bool.not_eq_true',
                   List.isEmpty_eq_false] at hp
        have huser := pfx_user_full n u h (c.display
            ++ ((args.map (fun a => ' ' :: a)).flatten ++ ['\r', '\n']))
          hp.1.1.1 hp.1.1.2 hp.1.2.1 hp.1.2.2 hp.2.1 hp.2.2
        simp only [Pfx.display, UserInfo.display, List.cons_append,
                   List.append_assoc] at *
        simp [opt, huser]
  -- assemble
  have hcrlf : tag ['\r', '\n'] ['\r', '\n'] = some ((), []) := by
    have := tag_exact ['\r', '\n'] []
    simpa using this
  have hfmt : Message.fmt (Message.mk p c args) ++ ['\r', '\n']
      = Pfx.display p ++ (c.display
        ++ ((args.map (fun a => ' ' :: a)).flatten ++ ['\r', '\n'])) := by
    simp [Message.fmt, hargsStr, List.append_assoc]
  rw [hfmt]
  rcases hpfx with hpfx | ⟨hpN, hpfx⟩
  · simp [Message.parse, terminated, message, pbind, pmap, hpfx, hcommand,
          hparams, hcrlf, Option.getD]
  · rw [hpN] at hpfx
    rw [hpN]
    simp [Message.parse, terminated, message, pbind, pmap, hpfx, hcommand,
          hparams, hcrlf, Option.getD]

/- ------------------------------------------------------------------ -/
/- Helper lemmas: the only-last-argument-spaces invariant.             -/
/- ------------------------------------------------------------------ -/

theorem paramStep_middle_or_stop :
    ∀ i a r, paramStep i = some (a, r) →
    (∀ c ∈ a, nospcrlfcl c = true) ∨ paramStep r = none := by
  intro i a r h
  simp only [paramStep, preceded, pbind] at h
  cases hcase : tag [' '] i with
  | none => rw [hcase] at h; exact absurd h (by simp)
  | some ur =>
    obtain ⟨u, i1⟩ := ur
    rw [hcase] at h
    simp only [alt] at h
    cases hparam : param i1 with
    | some ar =>
      obtain ⟨a', r'⟩ := ar
      rw [hparam] at h
      obtain ⟨rfl, rfl⟩ := some_pair_inj h
      left
      simp only [param, takeWhile1] at hparam
      split at hparam
      · exact absurd hparam (by simp)
      · have h1 := (some_pair_inj hparam).1
        intro c hc
        exact mem_takeWhile_pred i1 c (by rw [h1]; exact hc)
    | none =>
      rw [hparam] at h
      right
      simp only [final_param, preceded, pbind] at h
      cases hcol : tag [':'] i1 with
      | none => rw [hcol] at h; exact absurd h (by simp)
      | some cr =>
        obtain ⟨u2, i2⟩ := cr
        rw [hcol] at h
        simp only [trailing, takeWhile0] at h
        obtain ⟨rfl, rfl⟩ := some_pair_inj h
        cases hr : i2.dropWhile trailing_char with
        | nil => exact paramStep_nil
        | cons d t =>
          have hd := dropWhile_head_fail _ _ _ hr
          have hdne : d ≠ ' ' := by
            intro he
            rw [he] at hd
            exact absurd hd (by decide)
          exact paramStep_head_ne t hdne

theorem paramsAux_of_step_none {i : List Char} (h : paramStep i = none) :
    ∀ fuel, paramsAux fuel i = ([], i) := by
  intro fuel
  cases fuel with
  | zero => rfl
  | succ f => simp [paramsAux, h]

theorem paramsAux_dropLast_middle :
    ∀ fuel i args r, paramsAux fuel i = (args, r) →
    ∀ a ∈ args.dropLast, ∀ c ∈ a, nospcrlfcl c = true := by
  intro fuel
  induction fuel with
  | zero =>
    intro i args r h a ha
    obtain ⟨h1, -⟩ := Prod.mk.injEq .. ▸ h
    rw [← h1] at ha
    simp at ha
  | succ fuel ih =>
    intro i args r h a ha
    simp only [paramsAux] at h
    cases hcase : paramStep i with
    | none =>
      rw [hcase] at h
      obtain ⟨h1, -⟩ := Prod.mk.injEq .. ▸ h
      rw [← h1] at ha
      simp at ha
    | some ar =>
      obtain ⟨a0, r0⟩ := ar
      rw [hcase] at h
      obtain ⟨h1, -⟩ := Prod.mk.injEq .. ▸ h
      cases hres : (paramsAux fuel r0).1 with
      | nil =>
        rw [← h1, hres] at ha
        simp at ha
      | cons b bs =>
        rcases paramStep_middle_or_stop i a0 r0 hcase with hmid | hstop
        · rw [← h1, hres] at ha
          simp only [List.dropLast_cons₂, List.mem_cons] at ha
          rcases ha with rfl | ha
          · exact hmid
          · exact ih r0 (paramsAux fuel r0).1 (paramsAux fuel r0).2 rfl a
              (by rw [hres]; simpa using ha)
        · have hnil := paramsAux_of_step_none hstop fuel
          rw [hnil] at hres
          simp at hres

theorem pbind_inv {α β : Type _} {p : Parser α} {f : α → Parser β}
    {i : List Char} {v : β} {r : List Char} (h : pbind p f i = some (v, r)) :
    ∃ a r1, p i = some (a, r1) ∧ f a r1 = some (v, r) := by
  simp only [pbind] at h
  cases hcase : p i with
  | none => rw [hcase] at h; exact absurd h (by simp)
  | some ar =>
    obtain ⟨a, r1⟩ := ar
    rw [hcase] at h
    refine ⟨a, r1, rfl, ?_⟩
    exact h

theorem pmap_inv {α β : Type _} {f : α → β} {p : Parser α}
    {i : List Char} {v : β} {r : List Char} (h : pmap f p i = some (v, r)) :
    ∃ a, p i = some (a, r) ∧ f a = v := by
  simp only [pmap] at h
  cases hcase : p i with
  | none => rw [hcase] at h; exact absurd h (by simp)
  | some ar =>
    obtain ⟨a, r1⟩ := ar
    rw [hcase] at h
    obtain ⟨hfa, hr⟩ := some_pair_inj h
    exact ⟨a, hr ▸ rfl, hfa⟩

theorem message_inv {input : List Char} {m : Message} {r : List Char}
    (h : message input = some (m, r)) :
    ∃ op i1 c i2 args,
      opt pfx input = some (op, i1) ∧ command i1 = some (c, i2)
        ∧ params i2 = some (args, r)
        ∧ m = Message.mk (op.getD Pfx.None) c args := by
  simp only [message] at h
  obtain ⟨op, i1, hopt, h2⟩ := pbind_inv h
  obtain ⟨c, i2, hcmd, h3⟩ := pbind_inv h2
  obtain ⟨args, hparams, hmk⟩ := pmap_inv h3
  exact ⟨op, i1, c, i2, args, hopt, hcmd, hparams, hmk.symm⟩

theorem parse_inv {input : List Char} {m : Message} {rest : List Char}
    (h : Message.parse input = some (m, rest)) :
    ∃ r1, message input = some (m, r1) ∧ tag ['\r', '\n'] r1 = some ((), rest) := by
  simp only [Message.parse, terminated] at h
  obtain ⟨m1, r1, hmsg, h2⟩ := pbind_inv h
  obtain ⟨u, htag, hm1⟩ := pmap_inv h2
  obtain rfl : m1 = m := hm1
  exact ⟨r1, hmsg, by simpa using htag⟩

/- ------------------------------------------------------------------ -/
/- Helper lemmas: the message grammar never consumes a line feed.      -/
/- ------------------------------------------------------------------ -/

theorem notLF_of_pred {p : Char → Bool} (hp : p '\n' = false) :
    ∀ c, p c = true → NotLF c := by
  intro c hc he
  rw [he, hp] at hc
  exact Bool.false_ne_true hc

theorem consumedOk_noLF_paramStep : ConsumedOk NotLF paramStep :=
  consumedOk_preceded (consumedOk_tag [' '] (by intro c hc; simp at hc; rw [hc]; decide))
    (consumedOk_alt
      (consumedOk_takeWhile1 nospcrlfcl (notLF_of_pred (by decide)))
      (consumedOk_preceded
        (consumedOk_tag [':'] (by intro c hc; simp at hc; rw [hc]; decide))
        (consumedOk_takeWhile0 trailing_char (notLF_of_pred (by decide)))))

theorem paramsAux_consumed {P : Char → Prop} (hstep : ConsumedOk P paramStep) :
    ∀ fuel i args r, paramsAux fuel i = (args, r) →
    ∃ pre, i = pre ++ r ∧ ∀ c ∈ pre, P c := by
  intro fuel
  induction fuel with
  | zero =>
    intro i args r h
    obtain ⟨-, h2⟩ := Prod.mk.injEq .. ▸ h
    exact ⟨[], by simp [h2], by simp⟩
  | succ fuel ih =>
    intro i args r h
    simp only [paramsAux] at h
    cases hcase : paramStep i with
    | none =>
      rw [hcase] at h
      obtain ⟨-, h2⟩ := Prod.mk.injEq .. ▸ h
      exact ⟨[], by simp [h2], by simp⟩
    | some ar =>
      obtain ⟨a0, r0⟩ := ar
      rw [hcase] at h
      obtain ⟨-, h2⟩ := Prod.mk.injEq .. ▸ h
      obtain ⟨pre1, hi, hp1⟩ := hstep i a0 r0 hcase
      obtain ⟨pre2, hr0, hp2⟩ := ih r0 (paramsAux fuel r0).1 (paramsAux fuel r0).2 rfl
      refine ⟨pre1 ++ pre2, ?_, ?_⟩
      · rw [hi, hr0, List.append_assoc, h2]
      · intro c hc
        rcases List.mem_append.mp hc with hc | hc
        · exact hp1 c hc
        · exact hp2 c hc

theorem consumedOk_params {P : Char → Prop} (hstep : ConsumedOk P paramStep) :
    ConsumedOk P params := by
  intro i v r h
  simp only [params] at h
  exact paramsAux_consumed hstep i.length i v r (Option.some.inj h)

theorem consumedOk_noLF_user_info : ConsumedOk NotLF user_info := by
  have hnick : ConsumedOk NotLF nickname :=
    consumedOk_takeWhile1 is_nickname_char (notLF_of_pred (by decide))
  have huser : ConsumedOk NotLF username :=
    consumedOk_takeWhile1 is_username_char (notLF_of_pred (by decide))
  have hhost : ConsumedOk NotLF host :=
    consumedOk_takeWhile1 is_host_char (notLF_of_pred (by decide))
  have hbang : ConsumedOk NotLF (tag ['!']) :=
    consumedOk_tag ['!'] (by intro c hc; simp at hc; rw [hc]; decide)
  have hat : ConsumedOk NotLF (tag ['@']) :=
    consumedOk_tag ['@'] (by intro c hc; simp at hc; rw [hc]; decide)
  refine consumedOk_alt ?_ (consumedOk_alt ?_ ?_)
  · exact consumedOk_pbind hnick (fun n => consumedOk_pbind hbang (fun _ =>
      consumedOk_pbind huser (fun u => consumedOk_pbind hat (fun _ =>
        consumedOk_pmap _ hhost))))
  · exact consumedOk_pbind hnick (fun n => consumedOk_pbind hat (fun _ =>
      consumedOk_pmap _ hhost))
  · exact consumedOk_pmap _ hnick

theorem consumedOk_noLF_pfx : ConsumedOk NotLF pfx := by
  have hcolon : ConsumedOk NotLF (tag [':']) :=
    consumedOk_tag [':'] (by intro c hc; simp at hc; rw [hc]; decide)
  have hspace : ConsumedOk NotLF (tag [' ']) :=
    consumedOk_tag [' '] (by intro c hc; simp at hc; rw [hc]; decide)
  have hhost : ConsumedOk NotLF host :=
    consumedOk_takeWhile1 is_host_char (notLF_of_pred (by decide))
  exact consumedOk_preceded hcolon
    (consumedOk_alt
      (consumedOk_terminated (consumedOk_pmap _ consumedOk_noLF_user_info) hspace)
      (consumedOk_terminated (consumedOk_pmap _ hhost) hspace))

theorem consumedOk_noLF_command : ConsumedOk NotLF command :=
  consumedOk_alt
    (consumedOk_pmap _ (consumedOk_takeWhile1 is_letter (notLF_of_pred (by decide))))
    (consumedOk_pmap _ (consumedOk_takeWhile1 is_digit (notLF_of_pred (by decide))))

theorem consumedOk_noLF_message : ConsumedOk NotLF message :=
  consumedOk_pbind (consumedOk_opt consumedOk_noLF_pfx) (fun _ =>
    consumedOk_pbind consumedOk_noLF_command (fun _ =>
      consumedOk_pmap _ (consumedOk_params consumedOk_noLF_paramStep)))

theorem parse_consumed_noLF {input : List Char} {m : Message} {rest : List Char}
    (h : Message.parse input = some (m, rest)) :
    ∃ pre, input = pre ++ ('\r' :: '\n' :: rest) ∧ '\n' ∉ pre := by
  obtain ⟨r1, hmsg, htag⟩ := parse_inv h
  have hr1 : r1 = '\r' :: '\n' :: rest := by
    have := tag_shape ['\r', '\n'] r1 () rest htag
    simpa using this
  obtain ⟨pre, hinput, hpre⟩ := consumedOk_noLF_message input m r1 hmsg
  refine ⟨pre, by rw [← hr1, hinput], ?_⟩
  intro hmem
  exact hpre '\n' hmem rfl

/- ------------------------------------------------------------------ -/
/- Helper lemmas: serialisation equals its specification.              -/
/- ------------------------------------------------------------------ -/

theorem serializeArgsFrom_eq_spec :
    ∀ (args : List (List Char)) (i total : Nat), i + args.length = total →
    serializeArgsFrom total i args = fmtSpecArgs args := by
  intro args
  induction args with
  | nil => intro i total _; rfl
  | cons a t ih =>
    intro i total hlen
    cases t with
    | nil =>
      have hbeq : (i == total - 1) = true := by
        simp only [List.length_cons, List.length_nil] at hlen
        simp only [beq_iff_eq]
        omega
      simp [serializeArgsFrom, fmtSpecArgs, hbeq]
    | cons b t' =>
      have hbeq : (i == total - 1) = false := by
        simp only [List.length_cons] at hlen
        simp only [beq_eq_false_iff_ne, ne_eq]
        omega
      have ihr := ih (i + 1) total (by
        simp only [List.length_cons] at hlen ⊢
        omega)
      calc serializeArgsFrom total i (a :: b :: t')
          = (' ' :: (if i == total - 1 && a.contains ' ' then ':' :: a else a))
              ++ serializeArgsFrom total (i + 1) (b :: t') := rfl
        _ = (' ' :: a) ++ serializeArgsFrom total (i + 1) (b :: t') := by
              rw [hbeq]
              rfl
        _ = (' ' :: a) ++ fmtSpecArgs (b :: t') := by rw [ihr]
        _ = fmtSpecArgs (a :: b :: t') := rfl

/- ------------------------------------------------------------------ -/
/- Helper lemmas: parsing a prefixed PING line.                        -/
/- ------------------------------------------------------------------ -/

theorem nickRunB_parts {s : List Char} (h : nickRunB s = true) :
    s ≠ [] ∧ ∀ c ∈ s, is_nickname_char c = true := by
  simpa only [nickRunB, Bool.and_eq_true, List.all_eq_true,
              Bool.not_eq_true', List.isEmpty_eq_false] using h

theorem userRunB_parts {s : List Char} (h : userRunB s = true) :
    s ≠ [] ∧ ∀ c ∈ s, is_username_char c = true := by
  simpa only [userRunB, Bool.and_eq_true, List.all_eq_true,
              Bool.not_eq_true', List.isEmpty_eq_false] using h

theorem hostRunB_parts {s : List Char} (h : hostRunB s = true) :
    s ≠ [] ∧ ∀ c ∈ s, is_host_char c = true := by
  simpa only [hostRunB, Bool.and_eq_true, List.all_eq_true,
              Bool.not_eq_true', List.isEmpty_eq_false] using h

theorem parse_of_pfx_ping (input : List Char) (P : Pfx)
    (h1 : pfx input = some (P, "PING".toList ++ ['\r', '\n'])) :
    Message.parse input = some (Message.mk P PING [], []) := by
  have hopt : opt pfx input = some (some P, "PING".toList ++ ['\r', '\n']) := by
    simp [opt, h1]
  have hcmd : command ('P' :: 'I' :: 'N' :: 'G' :: '\r' :: '\n' :: [])
      = some (PING, ['\r', '\n']) := by
    have h := command_word_exact ("PING".toList) ['\r', '\n'] (by decide)
      (by decide) (headFails_cons _ (by decide))
    simpa [PING] using h
  have hparams : params ['\r', '\n'] = some ([], ['\r', '\n']) :=
    params_step_none (paramStep_head_ne _ (by decide))
  have hcrlf : tag ['\r', '\n'] ['\r', '\n'] = some ((), []) := by
    simpa using tag_exact ['\r', '\n'] []
  simp [Message.parse, terminated, message, pbind, pmap, hopt, hcmd, hparams,
        hcrlf, Option.getD]

/- ------------------------------------------------------------------ -/
/- Claim theorems.                                                     -/
/- ------------------------------------------------------------------ -/

/-- C1 (amended): round-trip on the domain the parser can actually invert —
for every `Message` whose command satisfies its construction invariant,
whose prefix fields are wire-legal runs (a server host additionally
containing a non-nickname character such as `'.'`), and whose every
argument is nonempty and made of middle-parameter characters (no space,
colon, NUL, CR or LF), parsing the serialised wire line (serialisation
plus CR LF) returns the same message with an empty remainder.  The
original claim's weaker hypothesis — only "no argument contains a
space" — is refuted by `c1_round_trip_counterexample`. -/
theorem c1_round_trip_amended (m : Message) (h : validMessage m = true) :
    Message.parse (Message.fmt m ++ ['\r', '\n']) = some (m, []) :=
  round_trip_valid m h

/-- C1 counterexample: the message `PING` with the single argument `":x"`
satisfies every hypothesis of the original claim (no argument contains a
space; command and prefix invariants hold), yet parsing its serialised
text yields a different message — the argument comes back as `"x"`,
because the serialised `":x"` reparses as a trailing-parameter marker. -/
theorem c1_round_trip_counterexample :
    Message.fmt (Message.mk Pfx.None PING [[':', 'x']]) = "PING :x".toList
    ∧ Message.parse ("PING :x".toList ++ ['\r', '\n'])
        = some (Message.mk Pfx.None PING [['x']], [])
    ∧ Message.mk Pfx.None PING [['x']] ≠ Message.mk Pfx.None PING [[':', 'x']] :=
  ⟨by decide, by decide, by decide⟩

/-- C1 witness: a concrete valid message round-trips. -/
theorem c1_round_trip_witness :
    validMessage (Message.mk
      (Pfx.User (UserInfo.NickUserHost ("nick".toList) ("user".toList)
        ("host.name".toList)))
      PRIVMSG [("chan".toList), ("hello".toList)]) = true
    ∧ Message.parse (Message.fmt (Message.mk
        (Pfx.User (UserInfo.NickUserHost ("nick".toList) ("user".toList)
          ("host.name".toList)))
        PRIVMSG [("chan".toList), ("hello".toList)]) ++ ['\r', '\n'])
      = some (Message.mk
          (Pfx.User (UserInfo.NickUserHost ("nick".toList) ("user".toList)
            ("host.name".toList)))
          PRIVMSG [("chan".toList), ("hello".toList)], []) :=
  ⟨by decide, c1_round_trip_amended _ (by decide)⟩

/-- C2 (amended): parsing `":nick!user@host "` yields
`User(nick, user, host)`; parsing `":nick@host "` yields `User(nick, host)`;
and a bare prefix token *consisting of nickname characters* yields
`User(nickname-only)` — the parser tries the full user form, then the
partial user form, then the bare-nickname form, in that order.  The
original claim's stronger statement that *every* bare token without
`'!'`/`'@'` becomes a `User` prefix is refuted by
`c2_prefix_disambiguation_counterexample`: a token with a non-nickname
character (such as a dotted hostname) falls through to `Server`. -/
theorem c2_prefix_disambiguation_amended :
    (∀ n u h, nickRunB n = true → userRunB u = true → hostRunB h = true →
      Message.parse (':' :: (n ++ '!' :: (u ++ '@' ::
          (h ++ ' ' :: ("PING".toList ++ ['\r', '\n'])))))
        = some (Message.mk (Pfx.User (UserInfo.NickUserHost n u h)) PING [], []))
    ∧ (∀ n h, nickRunB n = true → hostRunB h = true →
      Message.parse (':' :: (n ++ '@' :: (h ++ ' ' :: ("PING".toList ++ ['\r', '\n']))))
        = some (Message.mk (Pfx.User (UserInfo.NickHost n h)) PING [], []))
    ∧ (∀ n, nickRunB n = true →
      Message.parse (':' :: (n ++ ' ' :: ("PING".toList ++ ['\r', '\n'])))
        = some (Message.mk (Pfx.User (UserInfo.Nick n)) PING [], [])) := by
  refine ⟨?_, ?_, ?_⟩
  · intro n u h hn hu hh
    obtain ⟨hn1, hn2⟩ := nickRunB_parts hn
    obtain ⟨hu1, hu2⟩ := userRunB_parts hu
    obtain ⟨hh1, hh2⟩ := hostRunB_parts hh
    exact parse_of_pfx_ping _ _ (pfx_user_full n u h _ hn1 hn2 hu1 hu2 hh1 hh2)
  · intro n h hn hh
    obtain ⟨hn1, hn2⟩ := nickRunB_parts hn
    obtain ⟨hh1, hh2⟩ := hostRunB_parts hh
    exact parse_of_pfx_ping _ _ (pfx_user_nickhost n h _ hn1 hn2 hh1 hh2)
  · intro n hn
    obtain ⟨hn1, hn2⟩ := nickRunB_parts hn
    exact parse_of_pfx_ping _ _ (pfx_user_nick n _ hn1 hn2)

/-- C2 counterexample: `":some.where "` is a bare prefix token with no
`'!'` or `'@'`, yet the parser classifies it as `Prefix::Server`, not as a
nickname-only user — refuting the claim's "never Prefix::Server".  (The
source's own test `message_server_prefix` expects exactly this.) -/
theorem c2_prefix_disambiguation_counterexample :
    Message.parse (":some.where PING\r\n".toList)
      = some (Message.mk (Pfx.Server ("some.where".toList)) PING [], []) := by
  decide

/-- C2 witness: the full user form at concrete fields. -/
theorem c2_prefix_disambiguation_witness :
    Message.parse (':' :: ("nick".toList ++ '!' :: ("user".toList ++ '@' ::
        ("host.example".toList ++ ' ' :: ("PING".toList ++ ['\r', '\n'])))))
      = some (Message.mk (Pfx.User (UserInfo.NickUserHost ("nick".toList)
          ("user".toList) ("host.example".toList))) PING [], []) :=
  c2_prefix_disambiguation_amended.1 _ _ _ (by decide) (by decide) (by decide)

/-- C3 (amended): the command parser tries the word form before the numeric
form; a zero-length match in either branch (a head character that is
neither letter nor digit, or an empty input) fails; the numeric form
consumes a *maximal* run of digits — with no 3-digit cap — whose decimal
value is taken verbatim when it fits in a `u16` and silently replaced by
`123` otherwise; and a mixed letters-and-digits command such as `PR1VMSG`
makes the line fail to parse (the letter run is consumed and the leftover
digits break the terminator match).  The original "at most 3 digits /
4-or-more-digit numeric is a parse error" is refuted by
`c3_command_shape_counterexample`; the source's own TODO notes the missing
validation. -/
theorem c3_command_shape_amended :
    (∀ i v r, word_command i = some (v, r) → command i = some (v, r))
    ∧ (∀ i, (∀ c, i.head? = some c → is_letter c = false ∧ is_digit c = false) →
        command i = none)
    ∧ (∀ ds rest, ds ≠ [] → (∀ c ∈ ds, is_digit c = true) →
        headFails is_digit rest →
        command (ds ++ rest)
          = some (Command.Number
              (if decValue ds ≤ 65535 then decValue ds else 123), rest))
    ∧ Message.parse ("PR1VMSG\r\n".toList) = none := by
  refine ⟨?_, ?_, ?_, by decide⟩
  · intro i v r h
    simp [command, alt, h]
  · intro i hstop
    cases i with
    | nil =>
      simp [command, alt, word_command, numeric_command, pmap, takeWhile1_nil]
    | cons d t =>
      have h1 := takeWhile1_head_fail t (hstop d rfl).1
      have h2 := takeWhile1_head_fail t (hstop d rfl).2
      simp [command, alt, word_command, numeric_command, pmap, h1, h2]
  · intro ds rest hne hall hstop
    have h := command_number_exact ds rest hne hall hstop
    simpa [make_number] using h

/-- C3 counterexample: the four-digit line `1234` parses successfully as
`Command::Number(1234)` — not a parse error, and more than 3 digits are
consumed. -/
theorem c3_command_shape_counterexample :
    Message.parse ("1234".toList ++ ['\r', '\n'])
      = some (Message.mk Pfx.None (Command.Number 1234) [], []) := by
  decide

/-- C3 witness: the numeric branch at `"005"`. -/
theorem c3_command_shape_witness :
    command ("005".toList ++ [' ']) = some (Command.Number 5, [' ']) := by
  have h := c3_command_shape_amended.2.2.1 ("005".toList) [' ']
    (by decide) (by decide) (headFails_cons _ (by decide))
  exact h.trans (by decide)

/-- C4: what the code actually does on an interior colon inside a middle
parameter.  On `"PING a:b\r\n"` the nom rule `param`
(`take_while1!(nospcrlfcl)`) stops at the colon, so the message grammar
returns argument `["a"]` with `":b\r\n"` unconsumed, and the full line
parse then fails at the terminator — the colon is *not* kept as data
inside the parameter, contradicting the claim (and the RFC `middle`
production quoted in the source's own comments, which allows interior
colons: `middle = nospcrlfcl *( ":" / nospcrlfcl )`). -/
theorem c4_interior_colon_code_eval :
    message ("PING a:b\r\n".toList)
      = some (Message.mk Pfx.None PING [['a']], [':', 'b', '\r', '\n'])
    ∧ Message.parse ("PING a:b\r\n".toList) = none :=
  ⟨by decide, by decide⟩

/-- C5 (amended): `Command::of_word` succeeds exactly when every character
of the word is an ASCII letter — in particular it *accepts* the empty
word (the validation loop has no iterations to fail), contrary to the
claim's "empty text is also rejected", which is refuted by
`c5_word_validation_counterexample`; on success it returns exactly
`Command::Word` of its input. -/
theorem c5_word_validation_amended :
    ∀ w : List Char,
    ((Command.of_word w).isSome ↔ ∀ c ∈ w, is_letter c = true)
    ∧ ∀ c', Command.of_word w = some c' → c' = Command.Word w := by
  intro w
  have hpred : ∀ c : Char, ((0x41 ≤ c.toNat && c.toNat ≤ 0x5A)
      || (0x61 ≤ c.toNat && c.toNat ≤ 0x7A)) = is_letter c := by
    intro c
    rw [Bool.eq_iff_iff]
    simp only [is_letter, Bool.or_eq_true, Bool.and_eq_true, decide_eq_true_eq]
    omega
  constructor
  · simp only [Command.of_word]
    split
    next hall =>
      simp only [Option.isSome_some, true_iff]
      intro c hc
      rw [← hpred c]
      exact List.all_eq_true.mp hall c hc
    next hall =>
      simp only [Option.isSome_none, Bool.false_eq_true, false_iff]
      intro hletters
      apply hall
      exact List.all_eq_true.mpr (fun c hc => by rw [hpred c]; exact hletters c hc)
  · intro c' h
    simp only [Command.of_word] at h
    split at h
    · exact (Option.some.inj h).symm
    · exact absurd h (by simp)

/-- C5 counterexample: the empty word is accepted by `Command::of_word`
(the Rust assertion loop never runs), refuting "empty text is also
rejected". -/
theorem c5_word_validation_counterexample :
    Command.of_word [] = some (Command.Word []) := by
  decide

/-- C5 witness. -/
theorem c5_word_validation_witness :
    (Command.of_word ("PING".toList)).isSome = true :=
  (c5_word_validation_amended ("PING".toList)).1.mpr (by decide)

/-- C6: the serialiser of `impl Display for Message` coincides with the
specification's description — prefix (when present) written as `':'`, its
text and one space; then the command's display form; then every argument
preceded by exactly one space, with the *final* argument prefixed by `':'`
if and only if it contains an embedded space, and no other argument ever
prefixed by `':'` (`fmtSpecArgs`/`fmtSpec` transcribe the spec's words). -/
theorem c6_trailing_colon_serialization :
    ∀ m : Message, Message.fmt m = Message.fmtSpec m := by
  intro m
  obtain ⟨p, c, args⟩ := m
  have hargs := serializeArgsFrom_eq_spec args 0 args.length (by omega)
  cases p <;> simp [Message.fmt, Message.fmtSpec, Pfx.display, hargs]

/-- C7 (amended): whenever `as_ping` succeeds, the derived PONG message
carries exactly the same argument list in the same order and the command
`PONG` — but its prefix is always `Prefix::None`, so when the original
PING carried a prefix the PONG differs from it in the prefix as well, not
only in the command; the original "differs in no way other than the
command" is refuted by `c7_ping_pong_counterexample`. -/
theorem c7_ping_pong_amended :
    ∀ (m : Message) (p : Ping), m.as_ping = some p →
      p.pong = Message.mk Pfx.None PONG m.arguments ∧ m.command = PING := by
  intro m p h
  simp only [Message.as_ping] at h
  by_cases hc : m.command = PING
  · rw [if_pos hc] at h
    obtain rfl := Option.some.inj h
    exact ⟨rfl, hc⟩
  · rw [if_neg hc] at h
    exact absurd h (by simp)

/-- C7 counterexample: a PING with a `Server` prefix projects through
`as_ping` and `pong` to a message whose prefix (`None`) differs from the
original's (`Server`), in addition to the command. -/
theorem c7_ping_pong_counterexample :
    Option.map Ping.pong
        (Message.as_ping (Message.mk (Pfx.Server ['s']) PING [['x']]))
      = some (Message.mk Pfx.None PONG [['x']])
    ∧ (Message.mk Pfx.None PONG [['x']]).pfx
        ≠ (Message.mk (Pfx.Server ['s']) PING [['x']]).pfx :=
  ⟨by decide, by decide⟩

/-- C7 witness. -/
theorem c7_ping_pong_witness :
    Ping.pong (Ping.mk [['x']]) = Message.mk Pfx.None PONG [['x']] :=
  (c7_ping_pong_amended (Message.mk Pfx.None PING [['x']]) (Ping.mk [['x']])
    (by decide)).1

/-- C8: `as_privmsg` is a fail-closed projection — it succeeds exactly when
the command is `PRIVMSG`, there are exactly two arguments, and the prefix
is a `User` prefix; and on success its fields are exactly the prefix's
`UserInfo` and the two arguments in order. -/
theorem c8_privmsg_projection :
    ∀ m : Message,
    ((m.as_privmsg).isSome ↔
      m.command = PRIVMSG ∧ m.arguments.length = 2 ∧ ∃ u, m.pfx = Pfx.User u)
    ∧ ∀ p, m.as_privmsg = some p →
        m.pfx = Pfx.User p.from_ ∧ m.arguments = [p.to_, p.text]
          ∧ m.command = PRIVMSG := by
  intro m
  obtain ⟨p0, c0, args0⟩ := m
  by_cases hc : c0 = PRIVMSG
  · subst hc
    by_cases hlen : args0.length = 2
    · obtain ⟨a, b, rfl⟩ := length_two_shape args0 hlen
      cases p0 with
      | None =>
        constructor
        · simp [Message.as_privmsg]
        · intro p hp
          simp [Message.as_privmsg] at hp
      | Server s =>
        constructor
        · simp [Message.as_privmsg]
        · intro p hp
          simp [Message.as_privmsg] at hp
      | User u =>
        constructor
        · simp [Message.as_privmsg]
        · intro p hp
          simp only [Message.as_privmsg, ne_eq, not_true_eq_false, if_false,
                     List.length_cons, List.length_nil] at hp
          obtain rfl := Option.some.inj (by simpa using hp)
          exact ⟨rfl, rfl, rfl⟩
    · constructor
      · simp [Message.as_privmsg, hlen]
      · intro p hp
        simp [Message.as_privmsg, hlen] at hp
  · constructor
    · simp [Message.as_privmsg, hc]
    · intro p hp
      simp [Message.as_privmsg, hc] at hp

/-- C8 witness. -/
theorem c8_privmsg_projection_witness :
    (Message.mk (Pfx.User (UserInfo.Nick ['n'])) PRIVMSG [['t'], ['x']]).pfx
      = Pfx.User (Privmsg.mk (UserInfo.Nick ['n']) ['t'] ['x']).from_ :=
  ((c8_privmsg_projection
      (Message.mk (Pfx.User (UserInfo.Nick ['n'])) PRIVMSG [['t'], ['x']])).2
    (Privmsg.mk (UserInfo.Nick ['n']) ['t'] ['x']) (by decide)).1

/-- C9: only the last argument may contain spaces — for every input on
which `Message::parse` succeeds, every argument of the resulting message
except possibly the final one contains no space character (middle
parameters are runs of `nospcrlfcl` characters, and a trailing parameter
is necessarily last because nothing can follow it). -/
theorem c9_only_last_spaces :
    ∀ input m rest, Message.parse input = some (m, rest) →
    ∀ a ∈ m.arguments.dropLast, ' ' ∉ a := by
  intro input m rest h a ha hmem
  obtain ⟨r1, hmsg, -⟩ := parse_inv h
  obtain ⟨op, i1, c, i2, args, -, -, hparams, hmk⟩ := message_inv hmsg
  have hargs : m.arguments = args := by rw [hmk]
  simp only [params] at hparams
  have hpa := Option.some.inj hparams
  have hmid := paramsAux_dropLast_middle i2.length i2 args r1 hpa a
    (by rw [← hargs]; exact ha)
  exact absurd (hmid ' ' hmem) (by decide)

/-- C9 witness: a parsed PRIVMSG whose non-final argument is space-free. -/
theorem c9_only_last_spaces_witness :
    Message.parse ("PRIVMSG someone :Hey what is up\r\n".toList)
      = some (Message.mk Pfx.None PRIVMSG
          [("someone".toList), ("Hey what is up".toList)], [])
    ∧ ' ' ∉ ("someone".toList) :=
  ⟨by decide,
    c9_only_last_spaces ("PRIVMSG someone :Hey what is up\r\n".toList)
      (Message.mk Pfx.None PRIVMSG
        [("someone".toList), ("Hey what is up".toList)]) []
      (by decide) ("someone".toList) (by decide)⟩

/-- C10: the assertion `remaining.len() == 0` inside
`IrcReader::next_message` can never fire.  `read_until(b'\n', ..)` only
produces buffers in which a line feed can occur at the last position (or
not at all); the message grammar never consumes a line feed, so a
successful `Message::parse` consumes text up to and including the first
line feed — which is the buffer's last byte — leaving an empty remainder.
(`Message::parse` itself is modelled from the spec, its definition not
being among the provided sources.) -/
theorem c10_next_message_assertion :
    ∀ buf m rest, '\n' ∉ buf.dropLast →
      Message.parse buf = some (m, rest) → rest = [] := by
  intro buf m rest hbuf h
  obtain ⟨pre, hbufeq, hpre⟩ := parse_consumed_noLF h
  cases rest with
  | nil => rfl
  | cons x xs =>
    exfalso
    apply hbuf
    have hb2 : buf = (pre ++ ['\r', '\n']) ++ x :: xs := by
      rw [hbufeq]
      simp
    rw [hb2, List.dropLast_append_cons]
    exact List.mem_append_left _ (by simp)

/-- C10 witness. -/
theorem c10_next_message_assertion_witness :
    '\n' ∉ ("PING 123\r\n".toList).dropLast
    ∧ Message.parse ("PING 123\r\n".toList)
        = some (Message.mk Pfx.None PING [("123".toList)], [])
    ∧ ([] : List Char) = [] :=
  ⟨by decide, by decide,
    c10_next_message_assertion ("PING 123\r\n".toList)
      (Message.mk Pfx.None PING [("123".toList)]) [] (by decide) (by decide)⟩

end Irc
